import Mathlib

/-!
# Verification of the NeuroKnights SSVEP signal-processing core

Shallow embedding of `src/ssvep/signal_processing/analysis.py` and
`src/ssvep/signal_processing/processing.py`.

Modelling conventions:
* `float64` values are modelled as exact rationals (`ℚ`); every float is a
  rational, and none of the claims under study concern rounding error.
* Transcendental values (`np.sin`, `np.cos`, `Real.sqrt`) are modelled in `ℝ`.
* numpy primitives (`np.arange`, `np.argmax`, `np.bincount`, `np.cov`,
  `np.sort`, `np.max`) are modelled by their documented semantics.
* Library numeric kernels with no closed form — the Butterworth/notch filter
  designs and the `filtfilt` application (scipy), the brainflow band filters,
  the sklearn CCA correlations, and `np.linalg.eigvals` — are taken as
  parameters (oracles) of the embedding; all control flow, shape handling and
  arithmetic around them is translated from the source.
* Python code that mutates a buffer in place is modelled by state passing:
  such a function returns both the post-call content of the caller's buffer
  and its Python return value.
-/

namespace NeuroKnights

/-- Model of `np.max` on a 1-D array: the maximum entry.  numpy raises on an
empty array; we return `dflt` there to stay total (no claim depends on that
case). -/
def npMax {α : Type} [LinearOrder α] (dflt : α) (l : List α) : α :=
  l.foldl max (l.headD dflt)

/-- Model of `np.argmax`: the index of the first occurrence of the maximum
entry (numpy documents first-occurrence tie-breaking). -/
def npArgmax {α : Type} [LinearOrder α] [DecidableEq α] (dflt : α) (l : List α) : ℕ :=
  l.findIdx (fun x => x = npMax dflt l)

/-- Model of `np.bincount` on a list of natural numbers: occurrence counts of
each value `0, 1, ..., max l`. -/
def npBincount (l : List ℕ) : List ℕ :=
  (List.range (npMax 0 l + 1)).map (fun v => l.count v)

/-- Model of `np.arange(start, stop, step)`: `⌈(stop - start)/step⌉` points
(clamped at zero), the i-th being `start + i·step`.  This is numpy's
documented length formula, valid for positive and negative `step`. -/
def npArange (start stop step : ℚ) : List ℚ :=
  (List.range (⌈(stop - start) / step⌉.toNat)).map (fun k : ℕ => start + (k : ℚ) * step)

/-! ## Reference signals — `FoCAA_KNN.get_reference_signals` (analysis.py:60-89) -/

/-- The time vector `t = np.arange(0, length / sampling_rate, 1.0 / sampling_rate)`
of `get_reference_signals` (analysis.py:73-75). -/
def refTimeVector (sampling_rate : ℚ) (length : ℕ) : List ℚ :=
  npArange 0 ((length : ℚ) / sampling_rate) (1 / sampling_rate)

/-- The four reference rows appended at analysis.py:79-84:
`sin(2π f t)`, `cos(2π f t)`, `sin(4π f t)`, `cos(4π f t)` over the time
vector. -/
noncomputable def refSignalRows (sampling_rate : ℚ) (length : ℕ) (target_freq : ℚ) :
    List (List ℝ) :=
  [ (refTimeVector sampling_rate length).map
      (fun x : ℚ => Real.sin (2 * Real.pi * (target_freq : ℝ) * (x : ℝ))),
    (refTimeVector sampling_rate length).map
      (fun x : ℚ => Real.cos (2 * Real.pi * (target_freq : ℝ) * (x : ℝ))),
    (refTimeVector sampling_rate length).map
      (fun x : ℚ => Real.sin (4 * Real.pi * (target_freq : ℝ) * (x : ℝ))),
    (refTimeVector sampling_rate length).map
      (fun x : ℚ => Real.cos (4 * Real.pi * (target_freq : ℝ) * (x : ℝ))) ]

/-- Shallow embedding of `FoCAA_KNN.get_reference_signals` (analysis.py:60-89).
The only fallible step is the Python division `length / sampling_rate`
(and `1.0 / sampling_rate`), which raises `ZeroDivisionError` iff
`sampling_rate = 0`; the function performs no other input validation. -/
noncomputable def get_reference_signals (sampling_rate : ℚ) (length : ℕ)
    (target_freq : ℚ) : Except String (List (List ℝ)) :=
  if sampling_rate = 0 then .error "ZeroDivisionError"
  else .ok (refSignalRows sampling_rate length target_freq)

/-- The reference signals stored by `FoCAA_KNN.__init__` (analysis.py:46-56):
one `get_reference_signals` result per configured frequency.  (`__init__`
would propagate the `ZeroDivisionError` raise; callers use a nonzero
sampling rate, matching the hypothesis under which this is used.) -/
noncomputable def initReferenceSignals (sampling_rate : ℚ) (cca_buffer_size : ℕ)
    (frequencies : List ℚ) : List (List (List ℝ)) :=
  frequencies.map (refSignalRows sampling_rate cca_buffer_size)

/-! ## Preprocessing — `DataProcessor` (processing.py) -/

/-- Model of `brainflow.DataFilter.detrend(channel, DetrendOperations.CONSTANT)`
(processing.py:40): subtracts the channel mean, in place. -/
def detrendConstant (chan : List ℚ) : List ℚ :=
  chan.map (fun x => x - chan.sum / (chan.length : ℚ))

/-- The in-place per-channel pipeline of `DataProcessor.process_data`
(processing.py:38-71): detrend, 6-40 Hz bandpass, 48-52 Hz bandstop,
58-62 Hz bandstop.  The three brainflow Butterworth filters are numeric
kernels and appear as the parameters `bp`, `bs1`, `bs2`; all of them,
like `detrend`, operate in place on the caller's channel buffer. -/
def processChannel (bp bs1 bs2 : List ℚ → List ℚ) (chan : List ℚ) : List ℚ :=
  bs2 (bs1 (bp (detrendConstant chan)))

/-- One sample row of `DataProcessor.car` with `reference_channel = None`
(processing.py:106-118): subtract the across-channel mean from every channel. -/
def carRowNone (row : List ℚ) : List ℚ :=
  row.map (fun x => x - row.sum / (row.length : ℚ))

/-- One sample row of `DataProcessor.car` with an explicit reference channel
(processing.py:94-104): every channel except the reference has the reference
channel's value subtracted; the reference channel is left untouched. -/
def carRowRef (r : ℕ) (row : List ℚ) : List ℚ :=
  row.mapIdx (fun c x => if c = r then x else x - row.getD r 0)

/-- Shallow embedding of `DataProcessor.car` (processing.py:83-120) on a
samples × channels array, 2-D case.  The source first takes
`data_car = data.copy()` (processing.py:92) and mutates only the copy, so the
returned array is a fresh value; value semantics model this directly. -/
def car (rows : List (List ℚ)) : Option ℕ → List (List ℚ)
  | some r => rows.map (carRowRef r)
  | none => rows.map carRowNone

/-- Call-frame model of `DataProcessor.car`: first component is the caller's
buffer after the call (unchanged — the in-place subtraction targets the
`data.copy()` made at processing.py:92), second the returned array. -/
def car_program (rows : List (List ℚ)) (ref : Option ℕ) :
    List (List ℚ) × List (List ℚ) :=
  (rows, car rows ref)

/-- Call-frame model of `DataProcessor.process_data` (processing.py:30-79):
first component is the caller's `data` buffer after the call — each channel
detrended and filtered **in place** by brainflow (`DataFilter.detrend` and
`DataFilter.perform_band*` operate on the passed array) — second the returned
array: the filtered buffer transposed to samples × channels with CAR
(no reference channel) applied. -/
def process_data (bp bs1 bs2 : List ℚ → List ℚ) (data : List (List ℚ)) :
    List (List ℚ) × List (List ℚ) :=
  let mutated := data.map (processChannel bp bs1 bs2)
  (mutated, car mutated.transpose none)

/-! ## Filter bank — `FoCAA_KNN.filtering` (analysis.py:398-505)

The Butterworth design (`signal.butter`), the notch design
(`signal.iirnotch`) and the zero-phase application (`signal.filtfilt`) are
numeric kernels, taken as oracle parameters over an abstract coefficient
type `α`; the cutoff normalization, the shape heuristics, the filter-kind
dispatch and the activation flags are translated from the source.  2-D data
case (`ndim = 3` loops `filtfilt` slice-by-slice and is not needed by any
claim). -/

/-- Shallow embedding of `FoCAA_KNN.filtering` (analysis.py:398-505).
Crucially, the `if/elif` chain at analysis.py:467-474 has **no `else`**: for
a `type_filter` outside {low, high, bandpass, bandstop} the coefficients
`b, a` are never assigned (modelled by `none`), and their later use at
analysis.py:489-496 raises `UnboundLocalError` — but only if
`filter_active == "on"`; otherwise the function returns normally. -/
def filtering {α : Type} (butterO : ℕ → List ℚ → String → α)
    (iirnotchO : ℚ → ℚ → ℚ → α)
    (filtfiltO : α → List (List ℚ) → List (List ℚ))
    (data : List (List ℚ)) (f_low f_high : ℚ) (order : ℕ) (fs : ℚ)
    (notch_freq quality_factor : ℚ)
    (filter_active notch_filter type_filter : String) :
    Except String (List (List ℚ)) :=
  let fl := f_low / (fs / 2)
  let fh := f_high / (fs / 2)
  let d1 := if (data.headD []).length < data.length then data.transpose else data
  let ba : Option α :=
    if type_filter = "low" then some (butterO order [fl] "low")
    else if type_filter = "high" then some (butterO order [fh] "high")
    else if type_filter = "bandpass" then some (butterO order [fl, fh] "bandpass")
    else if type_filter = "bandstop" then some (butterO order [fl, fh] "bandstop")
    else none
  let bNotch := iirnotchO notch_freq quality_factor fs
  let d2 := if notch_filter = "on" then filtfiltO bNotch d1 else d1
  let d3 : Except String (List (List ℚ)) :=
    if filter_active = "on" then
      match ba with
      | some coeffs => .ok (filtfiltO coeffs d2)
      | none => .error "UnboundLocalError"
    else .ok d2
  d3.map (fun d => if d.length < (d.headD []).length then d.transpose else d)

/-! ## Canonical correlation — `FoCAA_KNN.cca_analysis` (analysis.py:311-392) -/

/-- Column-centering step of `np.cov(xy, rowvar=False)`: subtract each
column's mean. -/
def centerCols {N d : ℕ} (M : Matrix (Fin N) (Fin d) ℚ) : Matrix (Fin N) (Fin d) ℚ :=
  Matrix.of fun s j => M s j - (∑ t, M t j) / (N : ℚ)

/-- Model of `np.cov(xy, rowvar=False)` (analysis.py:337): columns are the
variables, default `ddof = 1`, so the joint covariance is
`(centered)ᵀ · centered / (N - 1)`. -/
def npCov {N d : ℕ} (M : Matrix (Fin N) (Fin d) ℚ) : Matrix (Fin d) (Fin d) ℚ :=
  ((N : ℚ) - 1)⁻¹ • (Matrix.transpose (centerCols M) * centerCols M)

/-- Column concatenation `np.concatenate((X, Y), axis=1)`. -/
def concatCols {N a b : ℕ} (X : Matrix (Fin N) (Fin a) ℚ) (Y : Matrix (Fin N) (Fin b) ℚ) :
    Matrix (Fin N) (Fin (a + b)) ℚ :=
  Matrix.of fun s j =>
    if h : (j : ℕ) < a then X s ⟨j, h⟩
    else Y s ⟨(j : ℕ) - a, by have := j.isLt; omega⟩

/-- Index embedding for the leading `n = min a b` rows/columns of the joint
covariance (the `[:n]` slices at analysis.py:342-345). -/
def loIdx {a b : ℕ} (i : Fin (min a b)) : Fin (a + b) :=
  ⟨i, by have := i.isLt; omega⟩

/-- Index embedding for the trailing rows/columns of the joint covariance
(the `[n:]` slices at analysis.py:342-345). -/
def hiIdx {a b : ℕ} (i : Fin (a + b - min a b)) : Fin (a + b) :=
  ⟨min a b + i, by have := i.isLt; omega⟩

/-- `cx = covariance[:n, :n]` (analysis.py:342). -/
def cxBlock {N a b : ℕ} (X : Matrix (Fin N) (Fin a) ℚ) (Y : Matrix (Fin N) (Fin b) ℚ) :
    Matrix (Fin (min a b)) (Fin (min a b)) ℚ :=
  (npCov (concatCols X Y)).submatrix loIdx loIdx

/-- `cy = covariance[n:, n:]` (analysis.py:343). -/
def cyBlock {N a b : ℕ} (X : Matrix (Fin N) (Fin a) ℚ) (Y : Matrix (Fin N) (Fin b) ℚ) :
    Matrix (Fin (a + b - min a b)) (Fin (a + b - min a b)) ℚ :=
  (npCov (concatCols X Y)).submatrix hiIdx hiIdx

/-- `cxy = covariance[:n, n:]` (analysis.py:344). -/
def cxyBlock {N a b : ℕ} (X : Matrix (Fin N) (Fin a) ℚ) (Y : Matrix (Fin N) (Fin b) ℚ) :
    Matrix (Fin (min a b)) (Fin (a + b - min a b)) ℚ :=
  (npCov (concatCols X Y)).submatrix loIdx hiIdx

/-- `cyx = covariance[n:, :n]` (analysis.py:345). -/
def cyxBlock {N a b : ℕ} (X : Matrix (Fin N) (Fin a) ℚ) (Y : Matrix (Fin N) (Fin b) ℚ) :
    Matrix (Fin (a + b - min a b)) (Fin (min a b)) ℚ :=
  (npCov (concatCols X Y)).submatrix hiIdx loIdx

/-- Model of `np.linalg.inv`: `det⁻¹ · adjugate`, the matrix inverse wherever
the determinant is nonzero (numpy raises `LinAlgError` on a singular input;
the claims only exercise this at provably nonsingular arguments). -/
def matInv {d : ℕ} (M : Matrix (Fin d) (Fin d) ℚ) : Matrix (Fin d) (Fin d) ℚ :=
  (M.det)⁻¹ • M.adjugate

/-- `np.finfo(np.float32).eps` (analysis.py:348): `2⁻²³`. -/
def eps32 : ℚ := 1 / 8388608

/-- `coef = 10 ** (-5)` (analysis.py:355). -/
def regCoef : ℚ := 1 / 100000

/-- The `cx_inv` chosen at analysis.py:350-357: the plain inverse when both
determinants are nonzero, otherwise the inverse of the block regularized by
`coef · eps · I`. -/
def cxInvUsed {N a b : ℕ} (X : Matrix (Fin N) (Fin a) ℚ) (Y : Matrix (Fin N) (Fin b) ℚ) :
    Matrix (Fin (min a b)) (Fin (min a b)) ℚ :=
  if (cxBlock X Y).det ≠ 0 ∧ (cyBlock X Y).det ≠ 0 then matInv (cxBlock X Y)
  else matInv (cxBlock X Y + (regCoef * eps32) • (1 : Matrix (Fin (min a b)) (Fin (min a b)) ℚ))

/-- The `cy_inv` chosen at analysis.py:350-357. -/
def cyInvUsed {N a b : ℕ} (X : Matrix (Fin N) (Fin a) ℚ) (Y : Matrix (Fin N) (Fin b) ℚ) :
    Matrix (Fin (a + b - min a b)) (Fin (a + b - min a b)) ℚ :=
  if (cxBlock X Y).det ≠ 0 ∧ (cyBlock X Y).det ≠ 0 then matInv (cyBlock X Y)
  else matInv (cyBlock X Y + (regCoef * eps32) • (1 : Matrix (Fin (a + b - min a b)) (Fin (a + b - min a b)) ℚ))

/-- `corr_coef = cy_inv @ cyx @ cx_inv @ cxy` (analysis.py:358), for the
concatenation order `X` first.  `X` is the narrower operand after the
dispatch in `cca_analysis`. -/
def ccaM {N a b : ℕ} (X : Matrix (Fin N) (Fin a) ℚ) (Y : Matrix (Fin N) (Fin b) ℚ) :
    Matrix (Fin (a + b - min a b)) (Fin (a + b - min a b)) ℚ :=
  cyInvUsed X Y * cyxBlock X Y * cxInvUsed X Y * cxyBlock X Y

/-- Post-processing of the eigenvalues (analysis.py:377-392): clamp negative
values to zero (`eig_vals[eig_vals < 0] = 0`), sort ascending and reverse
(`np.sort(...)[::-1]`), take square roots, return the leading `n`.
`np.linalg.eigvals` returns float64 values, so the eigenvalue list is a list
of rationals. -/
noncomputable def ccaPost (eigs : List ℚ) (n : ℕ) : List ℝ :=
  let clamped := eigs.map (fun e => if e < 0 then 0 else e)
  let sortedDesc := (clamped.insertionSort (· ≤ ·)).reverse
  (sortedDesc.map (fun q : ℚ => Real.sqrt (q : ℝ))).take n

/-- `cca_analysis` body after the concatenation dispatch: `X` is the operand
concatenated first (the narrower one).  `eigs` is the oracle for
`np.linalg.eigvals(corr_coef)` applied to `ccaM X Y` — the only numeric
kernel of the function with no closed form; it returns as many eigenvalues
as the dimension of `ccaM X Y`, namely `a + b - min a b`. -/
noncomputable def cca_core {N a b : ℕ} (X : Matrix (Fin N) (Fin a) ℚ)
    (Y : Matrix (Fin N) (Fin b) ℚ) (eigs : List ℚ) : List ℝ :=
  ccaPost eigs (min a b)

/-- Shallow embedding of `FoCAA_KNN.cca_analysis` (analysis.py:311-392).
The concatenation at analysis.py:330-334 puts the narrower operand first
(wider operand last): `data` first iff `data.shape[1] <= data_ref.shape[1]`. -/
noncomputable def cca_analysis {N p q : ℕ} (data : Matrix (Fin N) (Fin p) ℚ)
    (data_ref : Matrix (Fin N) (Fin q) ℚ) (eigs : List ℚ) : List ℝ :=
  if p ≤ q then cca_core data data_ref eigs else cca_core data_ref data eigs

/-! ## FBCCA — `FoCAA_KNN.fbcca_analysis` (analysis.py:243-308)

The per-subband filtered data and its canonical correlations against each
reference are a numeric kernel chain (`filtering` + `cca_analysis` +
`np.max`); the scalar stored at analysis.py:295, `np.max(cano_corr)` for
subband `ind_sb` and stimulation frequency `ind_fstim`, depends only on the
window, the subband cutoffs and the reference — not on the weighting pair
`(a, b)` — and is modelled by the oracle `corrMax : ℕ → ℕ → ℚ`.
The exponents `val_a` are modelled as integers so that
`np.power(k, -val_a)` stays in exact arithmetic (`zpow`); the voting logic
under study does not depend on the exponent values. -/

/-- `phi = np.power(k, -val_a) + val_b` (analysis.py:269) at 0-based subband
index `k`, where the `k` array is `1, 2, ..., num_subbands`
(analysis.py:258-260). -/
def phiVal (val_a : ℤ) (val_b : ℚ) (k : ℕ) : ℚ :=
  ((k : ℚ) + 1) ^ (-val_a) + val_b

/-- The row written into `coeff[ind_sb, :]` by the loop at analysis.py:285-295. -/
def corrRow (corrMax : ℕ → ℕ → ℚ) (numFreqs sb : ℕ) : List ℚ :=
  (List.range numFreqs).map (fun j => corrMax sb j)

/-- `np.sum(phi * (coeff**2).T, axis=1)` (analysis.py:297-298): the
per-frequency weighted score vector of the current coefficient matrix. -/
def weightedScores (val_a : ℤ) (val_b : ℚ) (numSubbands numFreqs : ℕ)
    (coeff : List (List ℚ)) : List ℚ :=
  (List.range numFreqs).map (fun j =>
    ((List.range numSubbands).map
      (fun k => phiVal val_a val_b k * ((coeff.getD k []).getD j 0) ^ 2)).sum)

/-- Mutable state threaded through the `fbcca_analysis` loops: the `coeff`
matrix (reused across `(a, b)` pairs — it is allocated once at
analysis.py:263), the accumulated `labels` list, and the last-computed score
vector `c` (unassigned before the first subband iteration, hence `Option`). -/
structure FbccaState where
  coeff : List (List ℚ)
  labels : List ℕ
  lastScores : Option (List ℚ)

/-- One iteration of the subband loop at analysis.py:272-299: overwrite row
`sb` of `coeff` with the correlation maxima, then append
`np.argmax(np.sum(phi * (coeff**2).T, axis=1))` — computed from the coeff
matrix *as populated so far* — to `labels`, and remember the score vector. -/
def fbccaSubbandStep (corrMax : ℕ → ℕ → ℚ) (numFreqs numSubbands : ℕ)
    (val_a : ℤ) (val_b : ℚ) (st : FbccaState) (sb : ℕ) : FbccaState :=
  let coeff := st.coeff.set sb (corrRow corrMax numFreqs sb)
  let scores := weightedScores val_a val_b numSubbands numFreqs coeff
  { coeff := coeff
    labels := st.labels ++ [npArgmax 0 scores]
    lastScores := some scores }

/-- One iteration of the `(val_a, val_b)` grid loop (analysis.py:267-299):
run every subband in order. -/
def fbccaPairStep (corrMax : ℕ → ℕ → ℚ) (numFreqs numSubbands : ℕ)
    (st : FbccaState) (p : ℤ × ℚ) : FbccaState :=
  (List.range numSubbands).foldl
    (fbccaSubbandStep corrMax numFreqs numSubbands p.1 p.2) st

/-- The `(val_a, val_b)` iteration order of the nested loops at
analysis.py:267-268: for each `val_a`, every `val_b`. -/
def pairGrid (a : List ℤ) (b : List ℚ) : List (ℤ × ℚ) :=
  a.flatMap (fun val_a => b.map (fun val_b => (val_a, val_b)))

/-- The final state of the `fbcca_analysis` loops, starting from
`coeff = np.zeros((num_subbands, num_freqs))` (analysis.py:263), empty
`labels` (analysis.py:265) and no score vector yet. -/
def fbccaRun (corrMax : ℕ → ℕ → ℚ) (numFreqs numSubbands : ℕ)
    (a : List ℤ) (b : List ℚ) : FbccaState :=
  (pairGrid a b).foldl (fbccaPairStep corrMax numFreqs numSubbands)
    ⟨List.replicate numSubbands (List.replicate numFreqs 0), [], none⟩

/-- Shallow embedding of `FoCAA_KNN.fbcca_analysis` (analysis.py:243-308):
returns `(c, label)` where `c` is the score vector of the last loop
iteration (`none` models the `UnboundLocalError` that `return c` would raise
if no iteration ran) and `label = np.bincount(labels).argmax()`
(analysis.py:306-307): the most frequent per-iteration argmax, ties broken
by the lowest value because `np.argmax` returns the first maximum. -/
def fbcca_analysis (corrMax : ℕ → ℕ → ℚ) (numFreqs numSubbands : ℕ)
    (a : List ℤ) (b : List ℚ) : Option (List ℚ) × ℕ :=
  let st := fbccaRun corrMax numFreqs numSubbands a b
  (st.lastScores, npArgmax 0 (npBincount st.labels))

/-- The fully populated subbands × frequencies coefficient matrix. -/
def fullCoeff (corrMax : ℕ → ℕ → ℚ) (numFreqs numSubbands : ℕ) : List (List ℚ) :=
  (List.range numSubbands).map (corrRow corrMax numFreqs)

/-- Stated from the claim's words, for comparison with the source embedding:
one argmax per `(a, b)` pair, computed from the weighted scores of the fully
populated coefficient matrix. -/
def specPairLabels (corrMax : ℕ → ℕ → ℚ) (numFreqs numSubbands : ℕ)
    (a : List ℤ) (b : List ℚ) : List ℕ :=
  (pairGrid a b).map (fun p =>
    npArgmax 0 (weightedScores p.1 p.2 numSubbands numFreqs
      (fullCoeff corrMax numFreqs numSubbands)))

/-- Stated from the claim's words: the majority vote — ties broken by lowest
frequency index — over the per-`(a, b)`-pair argmax labels. -/
def specFbccaLabel (corrMax : ℕ → ℕ → ℚ) (numFreqs numSubbands : ℕ)
    (a : List ℤ) (b : List ℚ) : ℕ :=
  npArgmax 0 (npBincount (specPairLabels corrMax numFreqs numSubbands a b))

/-- The concrete per-(subband, frequency) correlation maxima used by the
`fbcca_analysis` counterexample: subband 0 yields `[1, 0]`, subband 1 yields
`[0, 2]`. -/
def exCorr (sb j : ℕ) : ℚ :=
  ([[1, 0], [0, 2]].getD sb []).getD j 0

/-! ## sklearn CCA wrapper — `FoCAA_KNN.sk_findCorr` (analysis.py:92-132) -/

/-- Shallow embedding of `FoCAA_KNN.sk_findCorr` (analysis.py:92-132): the
per-component canonical correlations `np.corrcoef(O1_a[:, i], O1_b[:, i])`
produced by the fitted sklearn CCA are a numeric kernel, modelled by the
oracle `corrO : frequency index → component index → ℚ`; the result stores,
for each of the `numFreqs` reference signals, the maximum over the
`n_components` correlations. -/
def sk_findCorr (n_components numFreqs : ℕ) (corrO : ℕ → ℕ → ℚ) : List ℚ :=
  (List.range numFreqs).map (fun freqIdx =>
    npMax 0 ((List.range n_components).map (corrO freqIdx)))

/-! ## Helper lemmas -/

theorem sum_map_sub_const (l : List ℚ) (c : ℚ) :
    (l.map (fun x => x - c)).sum = l.sum - (l.length : ℚ) * c := by
  induction l with
  | nil => simp
  | cons x xs ih =>
      simp only [List.map_cons, List.sum_cons, List.length_cons, ih]
      push_cast
      ring

/-! ## C4 — CAR with no reference channel has zero across-channel mean -/

/-- **C4.** For every samples × channels matrix, `DataProcessor.car` with
`reference_channel = None` returns a matrix in which, at every sample index,
the mean across channels is exactly zero (in the exact-rational model of
float arithmetic). -/
theorem car_none_zero_mean (rows : List (List ℚ)) :
    ∀ row ∈ car rows none, row.sum / (row.length : ℚ) = 0 := by
  intro row hrow
  rw [car] at hrow
  obtain ⟨r, _, rfl⟩ := List.mem_map.mp hrow
  rcases eq_or_ne r [] with rfl | hne
  · simp [carRowNone]
  · have hlen : (r.length : ℚ) ≠ 0 := by
      have := List.length_pos.mpr hne
      exact_mod_cast Nat.pos_iff_ne_zero.mp this
    rw [carRowNone, sum_map_sub_const, mul_div_cancel₀ _ hlen, sub_self, zero_div]

theorem car_none_zero_mean_witness :
    carRowNone [0, 0] ∈ car [[0, 0]] none ∧
      (carRowNone [0, 0]).sum / ((carRowNone [0, 0]).length : ℚ) = 0 :=
  ⟨by simp [car], car_none_zero_mean [[0, 0]] _ (by simp [car])⟩

/-! ## C10 — CAR with an explicit reference channel -/

/-- **C10.** `DataProcessor.car` with `reference_channel = r` leaves column
`r` equal to column `r` of the input, modifies every non-reference channel by
subtracting the reference channel's value, and — since the source copies the
input at processing.py:92 before its in-place subtraction — the caller's
buffer is unchanged after the call (`car_program` models the call frame). -/
theorem car_reference_channel (rows : List (List ℚ)) (r i c : ℕ)
    (hi : i < rows.length) (hc : c < (rows.getD i []).length) :
    (car_program rows (some r)).1 = rows ∧
      ((car rows (some r)).getD i []).getD c 0 =
        (if c = r then (rows.getD i []).getD c 0
         else (rows.getD i []).getD c 0 - (rows.getD i []).getD r 0) := by
  refine ⟨rfl, ?_⟩
  rw [car]
  have hlen : i < (rows.map (carRowRef r)).length := by simpa using hi
  rw [List.getD_eq_getElem _ _ hlen, List.getElem_map,
    List.getD_eq_getElem rows _ hi]
  have hc' : c < rows[i].length := by rwa [List.getD_eq_getElem _ _ hi] at hc
  rw [carRowRef]
  have hc'' : c < (rows[i].mapIdx
      (fun c x => if c = r then x else x - rows[i].getD r 0)).length := by
    simpa using hc'
  rw [List.getD_eq_getElem _ _ hc'', List.getElem_mapIdx,
    List.getD_eq_getElem _ _ hc']

theorem car_reference_channel_witness :
    0 < ([[(0 : ℚ), 1]] : List (List ℚ)).length ∧
      1 < (([[(0 : ℚ), 1]] : List (List ℚ)).getD 0 []).length ∧
      (car_program [[(0 : ℚ), 1]] (some 0)).1 = [[(0 : ℚ), 1]] :=
  ⟨by decide, by decide,
    (car_reference_channel [[(0 : ℚ), 1]] 0 0 1 (by decide) (by decide)).1⟩

/-! ## C7 — `process_data` mutates the caller's input matrix -/

theorem process_data_const_eval (bp bs1 bs2 : List ℚ → List ℚ)
    (h1 : bp [0, 0] = [0, 0]) (h2 : bs1 [0, 0] = [0, 0])
    (h3 : bs2 [0, 0] = [0, 0]) :
    (process_data bp bs1 bs2 [[5, 5]]).1 = [[0, 0]] ∧
      (process_data bp bs1 bs2 [[5, 5]]).2 = [[0], [0]] := by
  have hd : detrendConstant [5, 5] = [0, 0] := by
    rw [detrendConstant]
    norm_num
  have ht : ([[(0 : ℚ), 0]] : List (List ℚ)).transpose = [[0], [0]] := rfl
  have hcar : carRowNone [(0 : ℚ)] = [0] := by
    rw [carRowNone]
    norm_num
  constructor
  · rw [process_data]
    simp [processChannel, hd, h1, h2, h3]
  · rw [process_data]
    simp only [processChannel, hd, h1, h2, h3, List.map_cons, List.map_nil, ht,
      car, hcar]

/-- **C7, counterexample.** The claim says the caller's input matrix holds the
same values after `process_data` as before it.  It does not: the brainflow
detrend and band filters at processing.py:38-71 operate in place on the
caller's array.  Concretely (filters instantiated with the identity — the
detrend step alone already rewrites the buffer): -/
theorem process_data_mutates_input :
    (process_data id id id [[5, 5]]).1 ≠ [[5, 5]] := by
  rw [(process_data_const_eval id id id rfl rfl rfl).1]
  intro h
  simp at h

/-- **C7, amended.** `process_data` returns a new samples × channels matrix
(the CAR stage copies), but the caller's channels × samples input is mutated
in place: each channel is detrended (mean subtracted) and filtered in the
caller's buffer.  A constant channel is zeroed by the detrend step and stays
zero through any filter that preserves the zero signal (every LTI filter
does). -/
theorem process_data_inplace_filtering (bp bs1 bs2 : List ℚ → List ℚ)
    (h1 : bp [0, 0] = [0, 0]) (h2 : bs1 [0, 0] = [0, 0])
    (h3 : bs2 [0, 0] = [0, 0]) :
    (process_data bp bs1 bs2 [[5, 5]]).1 = [[0, 0]] ∧
      (process_data bp bs1 bs2 [[5, 5]]).2 = [[0], [0]] :=
  process_data_const_eval bp bs1 bs2 h1 h2 h3

theorem process_data_inplace_filtering_witness :
    (id : List ℚ → List ℚ) [0, 0] = [0, 0] ∧
      (process_data id id id [[5, 5]]).1 = [[0, 0]] :=
  ⟨rfl, (process_data_inplace_filtering id id id rfl rfl rfl).1⟩

/-! ## C9 — unsupported filter kind does not raise a configuration error -/

/-- **C9.** The claim says an unsupported `type_filter` raises a
configuration error.  The `if/elif` chain at analysis.py:467-474 has no
`else`: with `filter_active = "off"` the function silently returns the
(un)filtered data, and with `filter_active = "on"` it raises
`UnboundLocalError` (unassigned `b, a`), not a configuration error. -/
theorem filtering_unsupported_kind_no_config_error {α : Type}
    (butterO : ℕ → List ℚ → String → α) (iirnotchO : ℚ → ℚ → ℚ → α)
    (filtfiltO : α → List (List ℚ) → List (List ℚ)) :
    filtering butterO iirnotchO filtfiltO [[1, 2], [3, 4]] 6 20 4 250 50 20
        "off" "off" "unsupported" = .ok [[1, 2], [3, 4]] ∧
      filtering butterO iirnotchO filtfiltO [[1, 2], [3, 4]] 6 20 4 250 50 20
        "on" "off" "unsupported" = .error "UnboundLocalError" :=
  ⟨rfl, rfl⟩

/-! ## C5 — reference-signal generator contract -/

theorem refTimeVector_eq (fs : ℚ) (L : ℕ) (h : fs ≠ 0) :
    refTimeVector fs L = (List.range L).map (fun k : ℕ => (k : ℚ) / fs) := by
  rw [refTimeVector, npArange]
  have hcount : ((L : ℚ) / fs - 0) / (1 / fs) = (L : ℚ) := by
    field_simp
  rw [hcount, Int.ceil_natCast, Int.toNat_natCast]
  refine List.map_congr_left ?_
  intro k _
  rw [zero_add, mul_one_div]

/-- **C5.** For every frequency, window length and positive sampling rate,
`get_reference_signals` returns the 4 × L matrix with rows
`[sin(2πft), cos(2πft), sin(4πft), cos(4πft)]` sampled at `t = k / fs` for
`k = 0, ..., L-1`; in particular every row has exactly `L` samples. -/
theorem get_reference_signals_contract (fs : ℚ) (L : ℕ) (f : ℚ) (hfs : 0 < fs) :
    get_reference_signals fs L f = .ok
      [ (List.range L).map (fun k : ℕ => Real.sin (2 * Real.pi * (f : ℝ) * ((k : ℝ) / (fs : ℝ)))),
        (List.range L).map (fun k : ℕ => Real.cos (2 * Real.pi * (f : ℝ) * ((k : ℝ) / (fs : ℝ)))),
        (List.range L).map (fun k : ℕ => Real.sin (4 * Real.pi * (f : ℝ) * ((k : ℝ) / (fs : ℝ)))),
        (List.range L).map (fun k : ℕ => Real.cos (4 * Real.pi * (f : ℝ) * ((k : ℝ) / (fs : ℝ)))) ] ∧
      ∀ row ∈ refSignalRows fs L f, row.length = L := by
  have hne : fs ≠ 0 := ne_of_gt hfs
  have hcast : ∀ k : ℕ, (((k : ℚ) / fs : ℚ) : ℝ) = (k : ℝ) / (fs : ℝ) := by
    intro k
    push_cast
    ring
  constructor
  · rw [get_reference_signals, if_neg hne, refSignalRows, refTimeVector_eq fs L hne]
    simp only [List.map_map, Function.comp_def, hcast]
  · intro row hrow
    rw [refSignalRows, refTimeVector_eq fs L hne] at hrow
    simp only [List.mem_cons, List.not_mem_nil, or_false] at hrow
    rcases hrow with rfl | rfl | rfl | rfl <;>
      simp only [List.length_map, List.length_range]

theorem get_reference_signals_contract_witness :
    (0 : ℚ) < 1 ∧ ∀ row ∈ refSignalRows 1 2 10, row.length = 2 :=
  ⟨one_pos, (get_reference_signals_contract 1 2 10 one_pos).2⟩

/-! ## C8 — no fail-fast validation of sampling rate / window length -/

/-- **C8.** The claim says `get_reference_signals` raises a configuration
error for `sampling_rate ≤ 0` or `window_length ≤ 0`.  The source
(analysis.py:60-89) performs no validation at all: a negative sampling rate
produces a normal 4 × L matrix (with a descending time vector), a zero or
negative window length produces a normal 4 × 0 matrix, and a zero sampling
rate raises `ZeroDivisionError` (a Python arithmetic error, not a
configuration error). -/
theorem get_reference_signals_no_failfast :
    get_reference_signals (-1) 3 5 = .ok (refSignalRows (-1) 3 5) ∧
      (refSignalRows (-1) 3 5).length = 4 ∧
      (∀ row ∈ refSignalRows (-1) 3 5, row.length = 3) ∧
      get_reference_signals 250 0 5 = .ok (refSignalRows 250 0 5) ∧
      (∀ row ∈ refSignalRows 250 0 5, row.length = 0) ∧
      get_reference_signals 0 3 5 = .error "ZeroDivisionError" := by
  have ht : refTimeVector (-1) 3 = [0, -1, -2] := by
    rw [refTimeVector_eq (-1) 3 (by norm_num)]
    have hr : List.range 3 = [0, 1, 2] := rfl
    rw [hr]
    norm_num
  have ht0 : refTimeVector 250 0 = [] := by
    rw [refTimeVector_eq 250 0 (by norm_num)]
    simp
  refine ⟨?_, ?_, ?_, ?_, ?_, ?_⟩
  · rw [get_reference_signals, if_neg (by norm_num)]
  · rfl
  · intro row hrow
    rw [refSignalRows, ht] at hrow
    simp only [List.mem_cons, List.not_mem_nil, or_false] at hrow
    rcases hrow with rfl | rfl | rfl | rfl <;> rfl
  · rw [get_reference_signals, if_neg (by norm_num)]
  · intro row hrow
    rw [refSignalRows, ht0] at hrow
    simp only [List.mem_cons, List.not_mem_nil, or_false] at hrow
    rcases hrow with rfl | rfl | rfl | rfl <;> rfl
  · rw [get_reference_signals, if_pos rfl]

/-! ## C6 — reference-signal count and coefficient-vector widths -/

theorem foldl_preserves {σ β : Type} (P : σ → Prop) (f : σ → β → σ)
    (hf : ∀ s x, P s → P (f s x)) :
    ∀ (l : List β) (s : σ), P s → P (l.foldl f s) := by
  intro l
  induction l with
  | nil => intro s hs; simpa using hs
  | cons x xs ih =>
      intro s hs
      rw [List.foldl_cons]
      exact ih _ (hf _ _ hs)

theorem corrRow_length (corrMax : ℕ → ℕ → ℚ) (numFreqs sb : ℕ) :
    (corrRow corrMax numFreqs sb).length = numFreqs := by
  simp [corrRow]

theorem weightedScores_length (val_a : ℤ) (val_b : ℚ) (numSubbands numFreqs : ℕ)
    (coeff : List (List ℚ)) :
    (weightedScores val_a val_b numSubbands numFreqs coeff).length = numFreqs := by
  simp [weightedScores]

theorem fbccaSubbandStep_coeff_inv (corrMax : ℕ → ℕ → ℚ)
    (numFreqs numSubbands : ℕ) (val_a : ℤ) (val_b : ℚ) (st : FbccaState) (sb : ℕ)
    (h : st.coeff.length = numSubbands ∧ ∀ row ∈ st.coeff, row.length = numFreqs) :
    (fbccaSubbandStep corrMax numFreqs numSubbands val_a val_b st sb).coeff.length
        = numSubbands ∧
      ∀ row ∈ (fbccaSubbandStep corrMax numFreqs numSubbands val_a val_b st sb).coeff,
        row.length = numFreqs := by
  constructor
  · rw [fbccaSubbandStep]
    simpa using h.1
  · intro row hrow
    rw [fbccaSubbandStep] at hrow
    rcases List.mem_or_eq_of_mem_set hrow with h' | rfl
    · exact h.2 _ h'
    · exact corrRow_length corrMax numFreqs sb

theorem fbccaRun_coeff_inv (corrMax : ℕ → ℕ → ℚ) (numFreqs numSubbands : ℕ)
    (a : List ℤ) (b : List ℚ) :
    (fbccaRun corrMax numFreqs numSubbands a b).coeff.length = numSubbands ∧
      ∀ row ∈ (fbccaRun corrMax numFreqs numSubbands a b).coeff,
        row.length = numFreqs := by
  rw [fbccaRun]
  refine foldl_preserves
    (fun st : FbccaState => st.coeff.length = numSubbands ∧
      ∀ row ∈ st.coeff, row.length = numFreqs) _ ?_ _ _ ?_
  · intro st p hst
    rw [fbccaPairStep]
    exact foldl_preserves _ _
      (fun st' sb => fbccaSubbandStep_coeff_inv corrMax numFreqs numSubbands
        p.1 p.2 st' sb) _ _ hst
  · constructor
    · simp
    · intro row hrow
      rw [List.eq_of_mem_replicate hrow]
      simp

theorem fbccaPairStep_lastScores (corrMax : ℕ → ℕ → ℚ)
    (numFreqs numSubbands : ℕ) (st : FbccaState) (p : ℤ × ℚ)
    (hS : 0 < numSubbands) :
    ∃ v, (fbccaPairStep corrMax numFreqs numSubbands st p).lastScores = some v ∧
      v.length = numFreqs := by
  obtain ⟨S', rfl⟩ : ∃ S', numSubbands = S' + 1 := ⟨numSubbands - 1, by omega⟩
  rw [fbccaPairStep, List.range_succ, List.foldl_append, List.foldl_cons,
    List.foldl_nil]
  exact ⟨_, rfl, weightedScores_length _ _ _ _ _⟩

theorem pairGrid_ne_nil (a : List ℤ) (b : List ℚ) (ha : a ≠ []) (hb : b ≠ []) :
    pairGrid a b ≠ [] := by
  obtain ⟨va, as, rfl⟩ := List.exists_cons_of_ne_nil ha
  obtain ⟨vb, bs, rfl⟩ := List.exists_cons_of_ne_nil hb
  simp [pairGrid]

/-- **C6.** With `N` configured target frequencies: the classifier stores
exactly `N` reference signals; the `sk_findCorr` result vector has width `N`;
every row of the `fbcca_analysis` coefficient matrix has width `N`; and the
score vector `c` returned by `fbcca_analysis` has width `N`.  (`hfs`
captures that construction completed — a zero sampling rate would have
raised inside `__init__`; `hS`, `ha`, `hb` capture that the FBCCA loops ran,
without which `return c` would raise `UnboundLocalError`.) -/
theorem coefficient_vector_widths (frequencies : List ℚ) (fs : ℚ)
    (cca_buffer_size n_components : ℕ) (corrO corrMax : ℕ → ℕ → ℚ)
    (numSubbands : ℕ) (a : List ℤ) (b : List ℚ)
    (hfs : fs ≠ 0) (hS : 0 < numSubbands) (ha : a ≠ []) (hb : b ≠ []) :
    (initReferenceSignals fs cca_buffer_size frequencies).length
        = frequencies.length ∧
      (sk_findCorr n_components frequencies.length corrO).length
        = frequencies.length ∧
      (∀ row ∈ (fbccaRun corrMax frequencies.length numSubbands a b).coeff,
        row.length = frequencies.length) ∧
      ∃ v, (fbcca_analysis corrMax frequencies.length numSubbands a b).1 = some v ∧
        v.length = frequencies.length := by
  refine ⟨by simp [initReferenceSignals], by simp [sk_findCorr],
    (fbccaRun_coeff_inv corrMax frequencies.length numSubbands a b).2, ?_⟩
  rw [fbcca_analysis, fbccaRun]
  obtain ⟨ps, p, hps⟩ :=
    (List.eq_nil_or_concat (pairGrid a b)).resolve_left (pairGrid_ne_nil a b ha hb)
  rw [hps, List.concat_eq_append, List.foldl_append, List.foldl_cons,
    List.foldl_nil]
  exact fbccaPairStep_lastScores corrMax frequencies.length numSubbands _ p hS

theorem coefficient_vector_widths_witness :
    ((1 : ℚ) ≠ 0 ∧ 0 < 1 ∧ ([0] : List ℤ) ≠ [] ∧ ([0] : List ℚ) ≠ []) ∧
      (sk_findCorr 1 ([8] : List ℚ).length (fun _ _ => 0)).length
        = ([8] : List ℚ).length :=
  ⟨⟨one_ne_zero, one_pos, by simp, by simp⟩,
    (coefficient_vector_widths [8] 1 1 1 (fun _ _ => 0) (fun _ _ => 0) 1 [0] [0]
      one_ne_zero one_pos (by simp) (by simp)).2.1⟩

/-! ## C1 — the FBCCA vote is per (a, b, subband), not per (a, b) pair -/

theorem npArgmax_pair_left {x y : ℚ} (h : y ≤ x) : npArgmax 0 [x, y] = 0 := by
  have hm : npMax 0 [x, y] = x := by
    simp [npMax, max_self, max_eq_left h]
  simp [npArgmax, hm, List.findIdx_cons]

theorem npArgmax_pair_right {x y : ℚ} (h : x < y) : npArgmax 0 [x, y] = 1 := by
  have hm : npMax 0 [x, y] = y := by
    simp [npMax, max_self, max_eq_right h.le]
  simp [npArgmax, hm, List.findIdx_cons, h.ne]

theorem foldl_max_replicate_zero (n i : ℕ) :
    List.foldl max i (List.replicate n 0) = i := by
  induction n generalizing i with
  | zero => rfl
  | succ m ih => simp [List.replicate_succ, List.foldl_cons, Nat.max_zero, ih]

theorem npMax_replicate_zero_append_one (l : ℕ) :
    npMax 0 (List.replicate l 0 ++ [1]) = 1 := by
  cases l with
  | zero => rfl
  | succ m =>
      rw [npMax]
      simp only [List.replicate_succ, List.cons_append, List.headD_cons,
        List.foldl_cons, List.foldl_append, foldl_max_replicate_zero]
      rfl

theorem findIdx_replicate_zero_append_one (l : ℕ) :
    List.findIdx (fun x => x = 1) (List.replicate l (0 : ℕ) ++ [1]) = l := by
  induction l with
  | zero => rfl
  | succ m ih =>
      simp only [List.replicate_succ, List.cons_append, List.findIdx_cons]
      simpa using ih

theorem npArgmax_npBincount_singleton (l : ℕ) :
    npArgmax 0 (npBincount [l]) = l := by
  have hb : npBincount [l] = List.replicate l 0 ++ [1] := by
    rw [npBincount]
    have hm : npMax 0 [l] = l := by simp [npMax, max_self]
    rw [hm, List.range_succ, List.map_append]
    congr 1
    · have hall : ∀ x ∈ (List.range l).map (fun v => List.count v [l]), x = 0 := by
        intro x hx
        obtain ⟨v, hv, rfl⟩ := List.mem_map.mp hx
        have hvl : l ≠ v := (Nat.ne_of_lt (List.mem_range.mp hv)).symm
        simp [List.count_singleton, hvl]
      have h0 := List.eq_replicate_of_mem hall
      rwa [List.length_map, List.length_range] at h0
    · simp [List.count_singleton]
  rw [hb, npArgmax, npMax_replicate_zero_append_one,
    findIdx_replicate_zero_append_one]

/-- **C1, counterexample.** `fbcca_analysis` does not take one argmax per
`(a, b)` pair: it appends one argmax per `(a, b, subband)` iteration
(analysis.py:297-299 sit inside the subband loop), computed from the
partially populated coefficient matrix.  With a single `(a, b)` pair
`(0, 0)` and two subbands whose correlation rows are `[1, 0]` and `[0, 2]`,
the source votes over labels `[0, 1]` (the first from the half-filled
matrix) and the tie-break returns 0, while the claim's per-pair argmax over
the fully populated matrix — which the claim says the single-pair grid
degenerates to — is 1. -/
theorem fbcca_majority_vote_counterexample :
    (fbcca_analysis exCorr 2 2 [0] [0]).2 = 0 ∧
      specFbccaLabel exCorr 2 2 [0] [0] = 1 := by
  have hr2 : List.range 2 = [0, 1] := rfl
  have hg : pairGrid [(0 : ℤ)] [(0 : ℚ)] = [(0, 0)] := rfl
  have hphi : ∀ k : ℕ, phiVal 0 0 k = 1 := by
    intro k
    simp [phiVal]
  have hc0 : corrRow exCorr 2 0 = [1, 0] := rfl
  have hc1 : corrRow exCorr 2 1 = [0, 2] := rfl
  have hw1 : weightedScores 0 0 2 2 [[1, 0], [0, 0]] = [1, 0] := by
    rw [weightedScores]
    simp only [hr2, hphi, List.map_cons, List.map_nil, List.sum_cons,
      List.sum_nil]
    norm_num
  have hw2 : weightedScores 0 0 2 2 [[1, 0], [0, 2]] = [1, 4] := by
    rw [weightedScores]
    simp only [hr2, hphi, List.map_cons, List.map_nil, List.sum_cons,
      List.sum_nil]
    norm_num
  have ha1 : npArgmax 0 [(1 : ℚ), 0] = 0 := npArgmax_pair_left (by norm_num)
  have ha2 : npArgmax 0 [(1 : ℚ), 4] = 1 := npArgmax_pair_right (by norm_num)
  have hrun : fbccaRun exCorr 2 2 [0] [0] =
      ⟨[[1, 0], [0, 2]], [0, 1], some [1, 4]⟩ := by
    rw [fbccaRun, hg, List.foldl_cons, List.foldl_nil, fbccaPairStep, hr2,
      List.foldl_cons, List.foldl_cons, List.foldl_nil]
    simp only [fbccaSubbandStep, hc0, hc1, List.replicate, List.set_cons_zero,
      List.set_cons_succ, hw1, hw2, ha1, ha2, List.nil_append, List.cons_append]
  constructor
  · show npArgmax 0 (npBincount (fbccaRun exCorr 2 2 [0] [0]).labels) = 0
    rw [hrun]
    decide
  · have hfull : fullCoeff exCorr 2 2 = [[1, 0], [0, 2]] := rfl
    rw [specFbccaLabel, specPairLabels, hg]
    simp only [List.map_cons, List.map_nil, hfull, hw2, ha2]
    decide

/-- **C1, amended.** The label returned by `fbcca_analysis` is the majority
vote — ties broken by the lowest value, since `np.argmax` on the bincount
returns the first maximum — over one argmax per `(a, b, subband)` iteration,
each computed from the coefficient matrix as populated so far (rows of later
subbands still hold the previous pass's values, zeros on the first pass).
The degenerate case is narrower than claimed: with exactly one `(a, b)` pair
*and a single subband*, the predicted label equals the direct argmax over
frequencies of the weighted score vector computed from the fully populated
1 × N coefficient matrix. -/
theorem fbcca_label_single_pair_single_subband (corrMax : ℕ → ℕ → ℚ)
    (numFreqs : ℕ) (val_a : ℤ) (val_b : ℚ) :
    (fbcca_analysis corrMax numFreqs 1 [val_a] [val_b]).2 =
      npArgmax 0 (weightedScores val_a val_b 1 numFreqs
        (fullCoeff corrMax numFreqs 1)) := by
  have hg : pairGrid [val_a] [val_b] = [(val_a, val_b)] := rfl
  have hr1 : List.range 1 = [0] := rfl
  have hfull : fullCoeff corrMax numFreqs 1 = [corrRow corrMax numFreqs 0] := by
    rw [fullCoeff, hr1]
    rfl
  show npArgmax 0
      (npBincount (fbccaRun corrMax numFreqs 1 [val_a] [val_b]).labels) = _
  rw [fbccaRun, hg, List.foldl_cons, List.foldl_nil, fbccaPairStep, hr1,
    List.foldl_cons, List.foldl_nil, fbccaSubbandStep, hfull]
  simp only [List.replicate_one, List.set_cons_zero, List.nil_append]
  exact npArgmax_npBincount_singleton _

/-! ## C2 — shape, order and eigenvalue provenance of `cca_analysis` -/

theorem ccaPost_length (eigs : List ℚ) (n : ℕ) :
    (ccaPost eigs n).length = min n eigs.length := by
  simp [ccaPost, List.length_insertionSort]

theorem ccaPost_sorted (eigs : List ℚ) (n : ℕ) :
    List.Sorted (· ≥ ·) (ccaPost eigs n) := by
  have h1 : List.Sorted (· ≤ ·)
      ((eigs.map (fun e => if e < 0 then 0 else e)).insertionSort (· ≤ ·)) :=
    List.sorted_insertionSort _ _
  have h2 : List.Sorted (· ≥ ·)
      ((eigs.map (fun e => if e < 0 then 0 else e)).insertionSort (· ≤ ·)).reverse :=
    List.pairwise_reverse.mpr h1
  have h3 : List.Sorted (· ≥ ·)
      (((eigs.map (fun e => if e < 0 then 0 else e)).insertionSort
          (· ≤ ·)).reverse.map (fun q : ℚ => Real.sqrt (q : ℝ))) :=
    h2.map _ (fun x y hxy =>
      Real.sqrt_le_sqrt (by exact_mod_cast hxy))
  exact List.Pairwise.sublist (List.take_sublist _ _) h3

theorem ccaPost_mem (eigs : List ℚ) (n : ℕ) :
    ∀ y ∈ ccaPost eigs n, ∃ e ∈ eigs,
      y = Real.sqrt ((if e < 0 then 0 else e : ℚ) : ℝ) := by
  intro y hy
  rw [ccaPost] at hy
  have hy' := List.mem_of_mem_take hy
  obtain ⟨s, hs, rfl⟩ := List.mem_map.mp hy'
  rw [List.mem_reverse, List.mem_insertionSort] at hs
  obtain ⟨e, he, rfl⟩ := List.mem_map.mp hs
  exact ⟨e, he, rfl⟩

/-- **C2.** `cca_analysis` on `data : N × p` and `data_ref : N × q` (with the
eigenvalue kernel returning one value per dimension of
`corr_coef = cy_inv @ cyx @ cx_inv @ cxy`, i.e. `max p q = p + q - min p q`
of them) returns exactly `min p q` coefficients, sorted descending, each the
square root of an eigenvalue with negative eigenvalues clamped to zero
before the square root; the matrix `ccaM` is built from the blocks of the
joint covariance of the two operands concatenated wider-operand-last
(narrower first, `cca_analysis` dispatching on `p ≤ q`). -/
theorem cca_analysis_contract {N p q : ℕ} (data : Matrix (Fin N) (Fin p) ℚ)
    (data_ref : Matrix (Fin N) (Fin q) ℚ) (eigs : List ℚ)
    (heigs : eigs.length = p + q - min p q) :
    (cca_analysis data data_ref eigs).length = min p q ∧
      List.Sorted (· ≥ ·) (cca_analysis data data_ref eigs) ∧
      ∀ y ∈ cca_analysis data data_ref eigs, ∃ e ∈ eigs,
        y = Real.sqrt ((if e < 0 then 0 else e : ℚ) : ℝ) := by
  rw [cca_analysis]
  by_cases hpq : p ≤ q
  · rw [if_pos hpq, cca_core]
    exact ⟨by rw [ccaPost_length, heigs]; omega,
      ccaPost_sorted _ _, ccaPost_mem _ _⟩
  · rw [if_neg hpq, cca_core]
    exact ⟨by rw [ccaPost_length, heigs]; omega,
      ccaPost_sorted _ _, ccaPost_mem _ _⟩

theorem cca_analysis_contract_witness :
    ([(0 : ℚ), 0]).length = 1 + 2 - min 1 2 ∧
      (cca_analysis (0 : Matrix (Fin 2) (Fin 1) ℚ)
        (0 : Matrix (Fin 2) (Fin 2) ℚ) [0, 0]).length = min 1 2 :=
  ⟨by decide, (cca_analysis_contract 0 0 [0, 0] (by decide)).1⟩

/-! ## C3 — regularization path on rank-deficient input -/

theorem dotProduct_self_nonneg {n : ℕ} (v : Fin n → ℚ) :
    0 ≤ Matrix.dotProduct v v := by
  rw [Matrix.dotProduct]
  exact Finset.sum_nonneg fun i _ => mul_self_nonneg _

theorem quad_form_smul_nonneg {N n : ℕ} (B : Matrix (Fin N) (Fin n) ℚ) (c : ℚ)
    (hc : 0 ≤ c) (v : Fin n → ℚ) :
    0 ≤ Matrix.dotProduct v ((c • (Matrix.transpose B * B)).mulVec v) := by
  rw [Matrix.smul_mulVec_assoc, Matrix.dotProduct_smul, smul_eq_mul]
  apply mul_nonneg hc
  rw [← Matrix.mulVec_mulVec, Matrix.dotProduct_mulVec, Matrix.vecMul_transpose]
  exact dotProduct_self_nonneg _

theorem det_psd_reg_ne_zero {n : ℕ} (M : Matrix (Fin n) (Fin n) ℚ)
    (hM : ∀ v, 0 ≤ Matrix.dotProduct v (M.mulVec v)) {ε : ℚ} (hε : 0 < ε) :
    (M + ε • (1 : Matrix (Fin n) (Fin n) ℚ)).det ≠ 0 := by
  intro h
  obtain ⟨v, hv, hv0⟩ := Matrix.exists_mulVec_eq_zero_iff.mpr h
  have h1 : Matrix.dotProduct v ((M + ε • 1).mulVec v) = 0 := by
    rw [hv0, Matrix.dotProduct_zero]
  rw [Matrix.add_mulVec, Matrix.dotProduct_add, Matrix.smul_mulVec_assoc,
    Matrix.one_mulVec, Matrix.dotProduct_smul, smul_eq_mul] at h1
  have h2 : 0 < Matrix.dotProduct v v := by
    rcases lt_or_eq_of_le (dotProduct_self_nonneg v) with h' | h'
    · exact h'
    · exact absurd (Matrix.dotProduct_self_eq_zero.mp h'.symm) hv
  nlinarith [hM v, mul_pos hε h2]

theorem cxBlock_eq {N a b : ℕ} (X : Matrix (Fin N) (Fin a) ℚ)
    (Y : Matrix (Fin N) (Fin b) ℚ) :
    cxBlock X Y = ((N : ℚ) - 1)⁻¹ •
      (Matrix.transpose ((centerCols (concatCols X Y)).submatrix id loIdx) *
        (centerCols (concatCols X Y)).submatrix id loIdx) := by
  ext i j
  simp [cxBlock, npCov, Matrix.submatrix_apply, Matrix.smul_apply,
    Matrix.mul_apply, Matrix.transpose_apply]

theorem cyBlock_eq {N a b : ℕ} (X : Matrix (Fin N) (Fin a) ℚ)
    (Y : Matrix (Fin N) (Fin b) ℚ) :
    cyBlock X Y = ((N : ℚ) - 1)⁻¹ •
      (Matrix.transpose ((centerCols (concatCols X Y)).submatrix id hiIdx) *
        (centerCols (concatCols X Y)).submatrix id hiIdx) := by
  ext i j
  simp [cyBlock, npCov, Matrix.submatrix_apply, Matrix.smul_apply,
    Matrix.mul_apply, Matrix.transpose_apply]

/-- **C3.** On rank-deficient input — `det cx = 0` or `det cy = 0` —
`cca_analysis` does not hit an inversion fault: it takes the normal
non-exceptional branch that regularizes *both* covariance blocks by
`1e-5 · float32_eps · I` before inversion (analysis.py:350-357); the
regularized blocks are provably nonsingular (a covariance block is positive
semidefinite, so adding `ε · I` with `ε > 0` makes it positive definite),
and every returned coefficient is non-negative (finiteness is inherent to
the exact-rational model).  `X` is the operand concatenated first, i.e. the
data matrix whenever `p ≤ q`. -/
theorem cca_regularization {N a b : ℕ} (X : Matrix (Fin N) (Fin a) ℚ)
    (Y : Matrix (Fin N) (Fin b) ℚ) (hN : 1 ≤ N)
    (hdet : (cxBlock X Y).det = 0 ∨ (cyBlock X Y).det = 0) :
    cxInvUsed X Y = matInv (cxBlock X Y +
        (regCoef * eps32) • (1 : Matrix (Fin (min a b)) (Fin (min a b)) ℚ)) ∧
      cyInvUsed X Y = matInv (cyBlock X Y + (regCoef * eps32) •
        (1 : Matrix (Fin (a + b - min a b)) (Fin (a + b - min a b)) ℚ)) ∧
      (cxBlock X Y + (regCoef * eps32) •
        (1 : Matrix (Fin (min a b)) (Fin (min a b)) ℚ)).det ≠ 0 ∧
      (cyBlock X Y + (regCoef * eps32) •
        (1 : Matrix (Fin (a + b - min a b)) (Fin (a + b - min a b)) ℚ)).det ≠ 0 ∧
      ∀ (eigs : List ℚ), ∀ y ∈ cca_core X Y eigs, (0 : ℝ) ≤ y := by
  have hcond : ¬((cxBlock X Y).det ≠ 0 ∧ (cyBlock X Y).det ≠ 0) := by tauto
  have hε : 0 < regCoef * eps32 := by norm_num [regCoef, eps32]
  have hc : (0 : ℚ) ≤ ((N : ℚ) - 1)⁻¹ := by
    apply inv_nonneg.mpr
    have : (1 : ℚ) ≤ (N : ℚ) := by exact_mod_cast hN
    linarith
  refine ⟨by rw [cxInvUsed, if_neg hcond], by rw [cyInvUsed, if_neg hcond],
    ?_, ?_, ?_⟩
  · exact det_psd_reg_ne_zero _
      (fun v => by rw [cxBlock_eq]; exact quad_form_smul_nonneg _ _ hc v) hε
  · exact det_psd_reg_ne_zero _
      (fun v => by rw [cyBlock_eq]; exact quad_form_smul_nonneg _ _ hc v) hε
  · intro eigs y hy
    rw [cca_core] at hy
    obtain ⟨e, _, rfl⟩ := ccaPost_mem eigs _ y hy
    exact Real.sqrt_nonneg _

theorem cca_regularization_witness :
    1 ≤ 2 ∧
      ((cxBlock (0 : Matrix (Fin 2) (Fin 1) ℚ)
          (0 : Matrix (Fin 2) (Fin 1) ℚ)).det = 0 ∨
        (cyBlock (0 : Matrix (Fin 2) (Fin 1) ℚ)
          (0 : Matrix (Fin 2) (Fin 1) ℚ)).det = 0) ∧
      (cxBlock (0 : Matrix (Fin 2) (Fin 1) ℚ) (0 : Matrix (Fin 2) (Fin 1) ℚ) +
        (regCoef * eps32) •
          (1 : Matrix (Fin (min 1 1)) (Fin (min 1 1)) ℚ)).det ≠ 0 := by
  have hx : cxBlock (0 : Matrix (Fin 2) (Fin 1) ℚ)
      (0 : Matrix (Fin 2) (Fin 1) ℚ) = 0 := by
    ext i j
    simp [cxBlock, npCov, centerCols, concatCols, Matrix.submatrix_apply,
      Matrix.smul_apply, Matrix.mul_apply, Matrix.transpose_apply]
  have hd : (cxBlock (0 : Matrix (Fin 2) (Fin 1) ℚ)
      (0 : Matrix (Fin 2) (Fin 1) ℚ)).det = 0 := by
    rw [hx]
    exact Matrix.det_zero ⟨⟨0, by omega⟩⟩
  exact ⟨by decide, Or.inl hd,
    (cca_regularization 0 0 (by decide) (Or.inl hd)).2.2.1⟩

end NeuroKnights
